/-
Verification of the retrieval fusion engine, content-search (grep) engine,
and tool-availability gates of the mcp-server-datahub repository.

The definitions below are shallow embeddings of the Python source:
  * tools/documents.py        (_merge_search_results, _hybrid_search_documents,
                               _search_documents_impl, grep_documents)
  * version_requirements.py   (_is_tool_compatible, filter_tools_by_version)
  * document_tools_middleware.py (filter_document_tools)

Python dict-based search results are modelled as records; a result's
"entity.urn" is an Option String (none models a missing key, and Python
truthiness of the empty string is handled explicitly).  Backend calls are
modelled as pure functions, and calls that may raise are modelled with
Except (an error value models an exception propagating).
-/
import Mathlib

set_option linter.unusedVariables false

/-- A single search result, as produced by the GraphQL backend.
`urn` models `result["entity"]["urn"]` (none = key absent), `searchType`
models the `searchType` field written during merging, and `id` stands for
the rest of the opaque payload, letting distinct results be told apart. -/
structure SResult where
  urn : Option String
  searchType : Option String
  id : Nat
deriving DecidableEq

/-- The urn under which a result is entered into the keyword/semantic urn
dictionaries: `entity.get("urn")` when it is truthy (non-empty), else none.
This mirrors the pervasive `if urn:` checks in `_merge_search_results`. -/
def urnKeyOf (r : SResult) : Option String :=
  match r.urn with
  | none => none
  | some s => if s = "" then none else some s

/-- The truthy urns of a result list, in order (the keys of the Python
`keyword_urns` / `semantic_urns` dictionaries). -/
def urnKeys (rs : List SResult) : List String :=
  rs.filterMap urnKeyOf

/-- `both_urns = set(keyword_urns) & set(semantic_urns)` -/
def bothUrns (k s : List SResult) : List String :=
  (urnKeys k).filter (fun u => decide (u ∈ urnKeys s))

/-- The raw membership test `result["entity"].get("urn") not in seen_urns`
(negated here): a missing urn is never in the seen set. -/
def rawSeen (r : SResult) (seen : List String) : Bool :=
  match r.urn with
  | none => false
  | some u => decide (u ∈ seen)

/-- Setting `result["searchType"] = t` on every result of a list, as the
keyword-only / semantic-only fallback branches of `_merge_search_results` do. -/
def tagAll (t : String) (rs : List SResult) : List SResult :=
  rs.map (fun r => { r with searchType := some t })

/-- One emission step of the merge: if the result has a truthy urn not yet
seen, tag it (`"both"` when the urn is in both hit sets, otherwise the
origin tag) and append it, recording the urn as seen.  This is the body
shared by positions 1, 2 and the interleaving loop of
`_merge_search_results`. -/
def emit (both : List String) (origin : String) (r : SResult) (seen : List String) :
    List SResult × List String :=
  match urnKeyOf r with
  | none => ([], seen)
  | some u =>
    if u ∈ seen then ([], seen)
    else ([{ r with searchType := some (if u ∈ both then "both" else origin) }], u :: seen)

/-- The order in which the `while ki < len(keyword_remaining) or si <
len(semantic_remaining)` loop visits the remaining results: one keyword
element (when available) then one semantic element (when available) per
iteration, each paired with its origin tag. -/
def rrMix : List SResult → List SResult → List (String × SResult)
  | [], ss => ss.map (fun s => ("semantic", s))
  | k :: ks, [] => ("keyword", k) :: rrMix ks []
  | k :: ks, s :: ss => ("keyword", k) :: ("semantic", s) :: rrMix ks ss

/-- Folding the emission step over a visit order, threading `seen_urns`:
this is the interleaving loop of `_merge_search_results`. -/
def emitFold (both : List String) : List (String × SResult) → List String →
    List SResult × List String
  | [], seen => ([], seen)
  | (o, r) :: rest, seen =>
    let step := emit both o r seen
    let next := emitFold both rest step.2
    (step.1 ++ next.1, next.2)

/-- The full merge path of `_merge_search_results` (both searches returned
a response): position 1 is the top keyword result, position 2 the top
semantic result, then the remaining results of both lists are prefiltered
against `seen_urns` and interleaved. -/
def fullMerge (k s : List SResult) : List SResult :=
  let both := bothUrns k s
  let p1 := match k with
    | [] => (([] : List SResult), ([] : List String))
    | kh :: _ => emit both "keyword" kh []
  let p2 := match s with
    | [] => (([] : List SResult), p1.2)
    | sh :: _ => emit both "semantic" sh p1.2
  let krem := (k.drop 1).filter (fun r => ! rawSeen r p2.2)
  let srem := (s.drop 1).filter (fun r => ! rawSeen r p2.2)
  p1.1 ++ p2.1 ++ (emitFold both (rrMix krem srem) p2.2).1

/-- `_merge_search_results`, at the level of the `searchResults` lists.
`none` models a falsy (absent/None/empty-dict) response.  The first three
branches are the edge cases at the top of the function; in the fourth, an
empty semantic list next to a non-empty keyword list is the "suspicious"
fallback, and otherwise the full merge runs. -/
def mergeSearchResults : Option (List SResult) → Option (List SResult) → List SResult
  | none, none => []
  | some k, none => tagAll "keyword" k
  | none, some s => tagAll "semantic" s
  | some k, some s =>
    if s.isEmpty && ! k.isEmpty then tagAll "keyword" k
    else fullMerge k s

/-- The first (up to) two emission steps of the full merge — the top
keyword result then the top semantic result — as a visit list.  Restates
positions 1 and 2 of `fullMerge` in `emitFold` form for reasoning. -/
def topsOf (k s : List SResult) : List (String × SResult) :=
  (k.take 1).map (fun r => ("keyword", r)) ++ (s.take 1).map (fun r => ("semantic", r))

/-- The `seen_urns` state after positions 1 and 2 of the full merge. -/
def seen2Of (both : List String) (k s : List SResult) : List String :=
  (emitFold both (topsOf k s) []).2

/-- The complete visit order of the full merge: the two top results, then
the prefiltered remainders interleaved round-robin. -/
def visitOf (both : List String) (k s : List SResult) : List (String × SResult) :=
  topsOf k s ++
    rrMix ((k.drop 1).filter (fun r => ! rawSeen r (seen2Of both k s)))
          ((s.drop 1).filter (fun r => ! rawSeen r (seen2Of both k s)))

/-! ## Hybrid search pipeline (`_search_documents_impl`, `_hybrid_search_documents`) -/

/-- `variables["count"] = max(min(num_results, 50), 1)`: the page size is
first capped at 50 by `_search_documents_impl`, then raised to the backend's
minimum valid count of 1. -/
def clampCount (n : Nat) : Nat := max (min n 50) 1

/-- The keyword branch of `_search_documents_impl`: the backend is asked for
`clampCount n` results starting at `off`; when `num_results == 0` the
`searchResults` key is popped from the response, so the observable hit list
is empty.  The backend is a pure function `count → start → hits`. -/
def searchImplKeyword (backend : Nat → Nat → List SResult) (n off : Nat) : List SResult :=
  if n = 0 then [] else backend (clampCount n) off

/-- The semantic branch of `_search_documents_impl`: identical except that
the GraphQL variables carry no `start`, so the backend is a function of the
count only. -/
def searchImplSemantic (backend : Nat → List SResult) (n : Nat) : List SResult :=
  if n = 0 then [] else backend (clampCount n)

/-- `MAX_HYBRID_FETCH_RESULTS = 100` -/
def MAX_HYBRID_FETCH_RESULTS : Nat := 100

/-- The observable output of `_hybrid_search_documents`. -/
structure HybridOutput where
  searchResults : List SResult
  start : Nat
  count : Nat
  total : Nat
  limitReached : Bool
deriving DecidableEq

/-- `_hybrid_search_documents`: compute `fetch_count = min(offset +
num_results, MAX_HYBRID_FETCH_RESULTS)`, run the keyword search with
`count=fetch_count, start=0`, run the semantic search likewise but catch any
exception (an `Except.error` semantic backend models the raising call, and
the `try/except` maps it to `none`), merge, then slice the merged list by
`[offset : offset + num_results]`. -/
def hybridSearchDocuments (kwB : Nat → Nat → List SResult)
    (semB : Except String (Nat → List SResult)) (numResults offset : Nat) : HybridOutput :=
  let fetchCount := min (offset + numResults) MAX_HYBRID_FETCH_RESULTS
  let hitLimit := decide (offset + numResults > MAX_HYBRID_FETCH_RESULTS)
  let kw := searchImplKeyword kwB fetchCount 0
  let sem : Option (List SResult) :=
    match semB with
    | .error _ => none
    | .ok b => some (searchImplSemantic b fetchCount)
  let merged := mergeSearchResults (some kw) sem
  let page := (merged.drop offset).take numResults
  { searchResults := page
    start := offset
    count := page.length
    total := merged.length
    limitReached := hitLimit }

/-! ## Content search engine (`grep_documents`)

Document text is modelled as a list of characters (Python strings are
indexed by character).  The RE2 engine is an external collaborator; the
claims under test use literal patterns, so a compiled pattern is modelled
as the literal character list it matches, and `re2.compile` as an arbitrary
`compile` function that may fail. -/

/-- A document entity as returned by the `documentContent` GraphQL call:
`text` models `entity["info"]["contents"]["text"]`, with `[]` standing for
a null/absent/empty text. -/
structure GEntity where
  urn : String
  title : String
  text : List Char
deriving DecidableEq

/-- One reported match excerpt (`{"excerpt": ..., "position": ...}`). -/
structure MatchExcerpt where
  excerpt : List Char
  position : Nat
deriving DecidableEq

/-- One per-document grep result entry.  The field `matchList` models the
JSON key `"matches"` (the word itself is reserved syntax in Lean). -/
structure DocGrepResult where
  urn : String
  title : String
  matchList : List MatchExcerpt
  total_matches : Nat
  content_length : Option Nat
deriving DecidableEq

/-- The overall result of `grep_documents` (the `error` key is present only
on the invalid-regex path). -/
structure GrepOutput where
  error : Option String
  results : List DocGrepResult
  total_matches : Nat
  documents_with_matches : Nat
deriving DecidableEq

/-- Start positions of the non-overlapping, left-to-right matches of the
literal pattern `p` in `t`, scanning from index `i`: this is what
`re2.finditer` yields on a literal pattern.  After a match the scan resumes
at the match end; on a mismatch it advances one character.  `fuel` bounds
the recursion (each step consumes at least one character of `t`). -/
def litPosAux (p : List Char) : Nat → List Char → Nat → List Nat
  | 0, _, _ => []
  | _ + 1, [], _ => []
  | fuel + 1, c :: rest, i =>
    if p.isPrefixOf (c :: rest) then
      i :: litPosAux p fuel ((c :: rest).drop (max p.length 1)) (i + max p.length 1)
    else
      litPosAux p fuel rest (i + 1)

/-- `regex.finditer(text)` for a literal pattern: the list of match start
positions (each match has length `p.length`). -/
def finditer (p t : List Char) : List Nat :=
  litPosAux p (t.length + 1) t 0

/-- The ellipsis marker `"..."`. -/
def dots : List Char := ['.', '.', '.']

/-- Build the excerpt object for a match starting at `s` in the
offset-adjusted `text`: `start_pos = max(0, s - context)`,
`end_pos = min(len(text), matchEnd + context)`, slice, add ellipses when
clipped, and report `position = s + start_offset`. -/
def mkExcerpt (text : List Char) (patLen ctx s off : Nat) : MatchExcerpt :=
  let startPos := s - ctx
  let endPos := min text.length (s + patLen + ctx)
  let raw := (text.drop startPos).take (endPos - startPos)
  let withLeft := if 0 < startPos then dots ++ raw else raw
  let withRight := if endPos < text.length then withLeft ++ dots else withLeft
  { excerpt := withRight, position := s + off }

/-- The per-entity scan loop of `grep_documents` (lines 701-773): skip
documents with empty text; record the full length; when `start_offset > 0`
skip the document if the offset is past the end, else drop the first
`start_offset` characters; count every match but materialize excerpts only
for the first `max_matches_per_doc`; documents with zero matches contribute
nothing; `content_length` is attached only when `start_offset > 0`. -/
def processDoc (pat : List Char) (ctx maxMatches off : Nat) (e : GEntity) :
    Option DocGrepResult :=
  if e.text.isEmpty then none
  else
    let fullLen := e.text.length
    if 0 < off ∧ fullLen ≤ off then none
    else
      let text := if 0 < off then e.text.drop off else e.text
      let ms := finditer pat text
      if ms.isEmpty then none
      else some
        { urn := e.urn
          title := e.title
          matchList := (ms.take maxMatches).map (fun s => mkExcerpt text pat.length ctx s off)
          total_matches := ms.length
          content_length := if 0 < off then some fullLen else none }

/-- `grep_documents`.  The batched content fetch is modelled by `fetch`
(an `Except.error` models the GraphQL call raising, which propagates), and
`re2.compile` by `compile` (an error is caught and rendered as the
structured invalid-pattern result).  Note the source performs the fetch
BEFORE compiling the pattern.  Entities may be null (`none`) in the
response and are skipped. -/
def grepDocuments (fetch : Except String (List (Option GEntity)))
    (compile : String → Except String (List Char)) (urns : List String)
    (pattern : String) (ctx maxMatches off : Nat) : Except String GrepOutput :=
  if urns.isEmpty then
    .ok { error := none, results := [], total_matches := 0, documents_with_matches := 0 }
  else
    match fetch with
    | .error e => .error e
    | .ok entities =>
      match compile pattern with
      | .error e =>
        .ok { error := some ("Invalid regex pattern: " ++ e)
              results := [], total_matches := 0, documents_with_matches := 0 }
      | .ok pat =>
        let docs := entities.filterMap (fun oe => oe.bind (processDoc pat ctx maxMatches off))
        .ok { error := none
              results := docs
              total_matches := (docs.map (fun d => d.total_matches)).sum
              documents_with_matches := docs.length }

/-! ## Version gate (`version_requirements.py`) -/

/-- A parsed `(major, minor, patch, build)` version. -/
abbrev Version4 := Nat × Nat × Nat × Nat

/-- Python tuple comparison `a <= b` is lexicographic. -/
def versionLe (a b : Version4) : Bool :=
  if a.1 ≠ b.1 then decide (a.1 < b.1)
  else if a.2.1 ≠ b.2.1 then decide (a.2.1 < b.2.1)
  else if a.2.2.1 ≠ b.2.2.1 then decide (a.2.2.1 < b.2.2.1)
  else decide (a.2.2.2 ≤ b.2.2.2)

/-- `VersionRequirement`: a `none` minimum means the tool is not available
on that deployment class. -/
structure VersionReq where
  cloud_min : Option Version4
  oss_min : Option Version4
deriving DecidableEq

/-- The minimum version relevant to the connected deployment class. -/
def classMin (req : VersionReq) (isCloud : Bool) : Option Version4 :=
  if isCloud then req.cloud_min else req.oss_min

/-- `_is_tool_compatible`: incompatible when the class minimum is null,
else compare `server_version >= minimum` lexicographically. -/
def isToolCompatible (req : VersionReq) (isCloud : Bool) (v : Version4) : Bool :=
  match classMin req isCloud with
  | none => false
  | some m => versionLe m v

/-- A listed tool descriptor (only the name matters to the filters). -/
structure ToolDesc where
  name : String
deriving DecidableEq

/-- `TOOL_VERSION_REQUIREMENTS.get(tool_name)` over the registry, modelled
as an association list. -/
def lookupReq (reqs : List (String × VersionReq)) (n : String) : Option VersionReq :=
  (reqs.find? (fun p => decide (p.1 = n))).map Prod.snd

/-- `filter_tools_by_version`: with an empty registry return the input
unchanged; if the version probe raises, fail open (return the input
unchanged); otherwise keep each tool without a registered requirement and
each tool whose requirement is compatible with the probed
`(is_cloud, server_version)`. -/
def filterToolsByVersion (reqs : List (String × VersionReq))
    (probe : Except String (Bool × Version4)) (tools : List ToolDesc) : List ToolDesc :=
  if reqs.isEmpty then tools
  else
    match probe with
    | .error _ => tools
    | .ok info =>
      tools.filter (fun t =>
        match lookupReq reqs t.name with
        | none => true
        | some req => isToolCompatible req info.1 info.2)

/-! ## Content-existence gate (`document_tools_middleware.py`) -/

/-- `DOCUMENT_TOOL_NAMES = {"search_documents", "grep_documents"}` -/
def DOCUMENT_TOOL_NAMES : List String := ["search_documents", "grep_documents"]

/-- `filter_document_tools`: when the static env switch disables document
tools, or the cached existence probe reports no documents, the two document
tools are removed; if the probe raises, the failure is treated as "no
documents" (fail closed for the two tools).  The probe is modelled by an
`Except` (error = the cached query raising). -/
def filterDocumentTools (disabled : Bool) (probe : Except String Bool)
    (tools : List ToolDesc) : List ToolDesc :=
  if disabled then
    tools.filter (fun t => ! decide (t.name ∈ DOCUMENT_TOOL_NAMES))
  else
    let hasDocuments := match probe with
      | .error _ => false
      | .ok b => b
    if hasDocuments then tools
    else tools.filter (fun t => ! decide (t.name ∈ DOCUMENT_TOOL_NAMES))

/-! ## Concrete instances used by witnesses and counterexamples -/

/-- Shorthand for a backend search result with a given urn. -/
def mkR (u : String) (i : Nat) : SResult := ⟨some u, none, i⟩

/-- A keyword backend returning three distinct hits, for witnesses. -/
def kwB3 : Nat → Nat → List SResult := fun _ _ => [mkR "x" 1, mkR "y" 2, mkR "z" 3]

/-- A semantic backend returning two hits (one overlapping), for witnesses. -/
def semB3 : Nat → List SResult := fun _ => [mkR "y" 12, mkR "w" 14]

/-- Distinct urns of increasing length, for bulk backends. -/
def aUrn (i : Nat) : String := String.mk (List.replicate (i + 1) 'a')

/-- A keyword backend that honours the requested count exactly, with all
urns distinct. -/
def kwB50 : Nat → Nat → List SResult :=
  fun c _ => (List.range c).map (fun i => ⟨some (aUrn i), none, i⟩)

/-- A semantic backend returning one hit disjoint from `kwB50`. -/
def semB1 : Nat → List SResult := fun _ => [⟨some "b", none, 999⟩]

/-- A regex compiler that rejects every pattern, modelling
`re2.compile` raising `re2.error` on a malformed pattern. -/
def badCompile : String → Except String (List Char) :=
  fun _ => .error "missing closing bracket"

/-- The spec's grep example text: 10 copies of `"word "`. -/
def wordText : List Char := (String.join (List.replicate 10 "word ")).toList

/-- The spec's absolute-position example text `"A"*50 + "MATCH" + "B"*50`. -/
def abText : List Char := List.replicate 50 'A' ++ "MATCH".toList ++ List.replicate 50 'B'

/-- A one-entry version registry: hosted (cloud) minimum only, no
self-managed (oss) minimum. -/
def hostedOnlyReqs : List (String × VersionReq) :=
  [("hosted_only_tool", ⟨some (0, 3, 16, 0), none⟩)]

/-! # Theorems -/

/-! ## Support lemmas -/

/-- Slicing a zero-offset page of size `a + 2k` at `[a+k : a+2k]` equals
slicing the underlying list directly at `[a+k : a+2k]`. -/
theorem dropTakeSlice {α : Type} (M : List α) (a k : Nat) :
    ((M.take (a + 2 * k)).drop (a + k)).take k = (M.drop (a + k)).take k := by
  have h2 : List.take k (M.drop (a + k)) = (M.take (a + 2 * k)).drop (a + k) := by
    rw [List.take_drop]
    congr 2
    omega
  rw [← h2, List.take_take, Nat.min_self]

/-- The offset-adjusted view of a document's text is `text.drop off`
whether or not the `start_offset > 0` branch is taken. -/
theorem viewEqDrop (t : List Char) (off : Nat) :
    (if 0 < off then t.drop off else t) = t.drop off := by
  by_cases h : 0 < off
  · simp [h]
  · have : off = 0 := by omega
    simp [this]

/-- Shape of a successful `processDoc`: the fields of the returned entry,
expressed over the offset view `e.text.drop off`. -/
theorem processDoc_eq (pat : List Char) (ctx maxM off : Nat) (e : GEntity)
    (d : DocGrepResult) (hd : processDoc pat ctx maxM off e = some d) :
    d.total_matches = (finditer pat (e.text.drop off)).length ∧
    d.matchList = ((finditer pat (e.text.drop off)).take maxM).map
      (fun s => mkExcerpt (e.text.drop off) pat.length ctx s off) := by
  simp only [processDoc, viewEqDrop] at hd
  split at hd
  · simp at hd
  · split at hd
    · simp at hd
    · split at hd
      · simp at hd
      · injection hd with hd
        subst hd
        exact ⟨rfl, rfl⟩

/-- Every position produced by the literal scan starting at index `i` is at
least `i`, and the pattern is a prefix of the text dropped at that
position's distance from `i`. -/
theorem litPosAux_spec (p : List Char) :
    ∀ fuel t i s, s ∈ litPosAux p fuel t i →
      i ≤ s ∧ p.isPrefixOf (t.drop (s - i)) = true := by
  intro fuel
  induction fuel with
  | zero => intro t i s h; simp [litPosAux] at h
  | succ f ih =>
    intro t i s h
    match t with
    | [] => simp [litPosAux] at h
    | c :: rest =>
      rw [litPosAux] at h
      by_cases hp : p.isPrefixOf (c :: rest) <;> simp only [hp, if_true, if_false,
        Bool.false_eq_true, reduceIte, List.mem_cons] at h
      · rcases h with h | h
        · subst h
          simpa [Nat.sub_self] using hp
        · obtain ⟨h1, h2⟩ := ih _ _ _ h
          refine ⟨by omega, ?_⟩
          rw [List.drop_drop] at h2
          have harg : max p.length 1 + (s - (i + max p.length 1)) = s - i := by omega
          rwa [harg] at h2
      · obtain ⟨h1, h2⟩ := ih _ _ _ h
        refine ⟨by omega, ?_⟩
        have harg : s - i = (s - (i + 1)) + 1 := by omega
        rw [harg, List.drop_succ_cons]
        exact h2

/-! ## Support lemmas about the merge pipeline -/

/-- Writing `searchType` leaves the dictionary urn unchanged. -/
theorem urnKeyOf_setTag (r : SResult) (t : Option String) :
    urnKeyOf { r with searchType := t } = urnKeyOf r := rfl

/-- Tagging a whole list leaves its truthy urns unchanged. -/
theorem urnKeys_tagAll (t : String) (rs : List SResult) :
    urnKeys (tagAll t rs) = urnKeys rs := by
  simp only [urnKeys, tagAll, List.filterMap_map]
  rfl

/-- If the raw seen test fires for a result carrying truthy urn `u`, then
`u` is in the seen set. -/
theorem mem_of_rawSeen (r : SResult) (seen : List String) (u : String)
    (hu : urnKeyOf r = some u) (h : rawSeen r seen = true) : u ∈ seen := by
  cases hr : r.urn with
  | none => simp [urnKeyOf, hr] at hu
  | some w =>
    simp only [urnKeyOf, hr] at hu
    simp only [rawSeen, hr] at h
    by_cases he : w = ""
    · simp [he] at hu
    · simp only [if_neg he, Option.some.injEq] at hu
      subst hu
      exact of_decide_eq_true h

/-- The seen set after an emission step holds exactly the old seen set plus
the urns of the emitted results. -/
theorem emit_seen_iff (b : List String) (o : String) (r : SResult) (seen : List String)
    (v : String) :
    v ∈ (emit b o r seen).2 ↔ v ∈ seen ∨ v ∈ urnKeys (emit b o r seen).1 := by
  unfold emit
  cases hu : urnKeyOf r with
  | none => simp [urnKeys]
  | some u =>
    by_cases hm : u ∈ seen
    · simp [hm, urnKeys]
    · simp [hm, urnKeys, urnKeyOf_setTag, hu, List.mem_cons, or_comm]

/-- An emission step never loses seen urns. -/
theorem emit_seen_subset (b : List String) (o : String) (r : SResult) (seen : List String) :
    seen ⊆ (emit b o r seen).2 := by
  intro v hv
  exact (emit_seen_iff b o r seen v).mpr (Or.inl hv)

/-- After its emission step, a result's truthy urn is in the seen set. -/
theorem emit_covers (b : List String) (o : String) (r : SResult) (seen : List String)
    (u : String) (hu : urnKeyOf r = some u) : u ∈ (emit b o r seen).2 := by
  unfold emit
  rw [hu]
  by_cases hm : u ∈ seen
  · simp [hm]
  · simp [hm]

/-- The results emitted by one step carry distinct urns, all fresh with
respect to the incoming seen set. -/
theorem emit_fresh (b : List String) (o : String) (r : SResult) (seen : List String) :
    (urnKeys (emit b o r seen).1).Nodup ∧ ∀ v ∈ urnKeys (emit b o r seen).1, v ∉ seen := by
  unfold emit
  cases hu : urnKeyOf r with
  | none => simp [urnKeys]
  | some u =>
    by_cases hm : u ∈ seen
    · simp [hm, urnKeys]
    · simp [hm, urnKeys, urnKeyOf_setTag, hu]

/-- Every result emitted by one step has a truthy urn, and is tagged
`"both"` whenever that urn lies in both hit sets. -/
theorem emit_tags (b : List String) (o : String) (r : SResult) (seen : List String)
    (x : SResult) (h : x ∈ (emit b o r seen).1) :
    ∃ u, urnKeyOf x = some u ∧ (u ∈ b → x.searchType = some "both") := by
  unfold emit at h
  split at h
  · simp at h
  · rename_i u hu
    split at h
    · simp at h
    · rename_i hm
      simp only [List.mem_singleton] at h
      subst h
      refine ⟨u, by rw [urnKeyOf_setTag, hu], fun hub => ?_⟩
      simp [hub]

/-- `emitFold` over an appended visit list runs the two parts in sequence,
threading the seen set. -/
theorem emitFold_append (b : List String) :
    ∀ (l1 l2 : List (String × SResult)) (seen : List String),
      emitFold b (l1 ++ l2) seen =
        ((emitFold b l1 seen).1 ++ (emitFold b l2 (emitFold b l1 seen).2).1,
          (emitFold b l2 (emitFold b l1 seen).2).2) := by
  intro l1
  induction l1 with
  | nil => intro l2 seen; simp [emitFold]
  | cons p rest ih =>
    intro l2 seen
    obtain ⟨o, r⟩ := p
    simp [emitFold, ih, List.append_assoc]

/-- First component of `emitFold_append`. -/
theorem emitFold_append_fst (b : List String) (l1 l2 : List (String × SResult))
    (seen : List String) :
    (emitFold b (l1 ++ l2) seen).1 =
      (emitFold b l1 seen).1 ++ (emitFold b l2 (emitFold b l1 seen).2).1 := by
  rw [emitFold_append]

/-- Second component of `emitFold_append`. -/
theorem emitFold_append_snd (b : List String) (l1 l2 : List (String × SResult))
    (seen : List String) :
    (emitFold b (l1 ++ l2) seen).2 = (emitFold b l2 (emitFold b l1 seen).2).2 := by
  rw [emitFold_append]

/-- The seen set after a fold holds exactly the initial seen set plus the
urns of all emitted results. -/
theorem emitFold_seen_iff (b : List String) :
    ∀ (l : List (String × SResult)) (seen : List String) (v : String),
      v ∈ (emitFold b l seen).2 ↔ v ∈ seen ∨ v ∈ urnKeys (emitFold b l seen).1 := by
  intro l
  induction l with
  | nil => intro seen v; simp [emitFold, urnKeys]
  | cons p rest ih =>
    intro seen v
    obtain ⟨o, r⟩ := p
    simp only [emitFold]
    rw [ih]
    rw [emit_seen_iff b o r seen v]
    simp only [urnKeys, List.filterMap_append, List.mem_append]
    tauto

/-- A fold never loses seen urns. -/
theorem emitFold_seen_subset (b : List String) (l : List (String × SResult))
    (seen : List String) : seen ⊆ (emitFold b l seen).2 := by
  intro v hv
  exact (emitFold_seen_iff b l seen v).mpr (Or.inl hv)

/-- After the fold, the truthy urn of every visited result is seen. -/
theorem emitFold_covers (b : List String) :
    ∀ (l : List (String × SResult)) (seen : List String) (o : String) (r : SResult)
      (u : String), (o, r) ∈ l → urnKeyOf r = some u → u ∈ (emitFold b l seen).2 := by
  intro l
  induction l with
  | nil => intro seen o r u h; simp at h
  | cons p rest ih =>
    obtain ⟨op, rp⟩ := p
    intro seen o r u h hu
    rcases List.mem_cons.mp h with h | h
    · injection h with h3 h4
      subst h3
      subst h4
      simp only [emitFold]
      exact emitFold_seen_subset b rest _ (emit_covers b o r seen u hu)
    · simp only [emitFold]
      exact ih _ o r u h hu

/-- The urns of the results emitted by a fold are distinct and fresh with
respect to the incoming seen set. -/
theorem emitFold_fresh (b : List String) :
    ∀ (l : List (String × SResult)) (seen : List String),
      (urnKeys (emitFold b l seen).1).Nodup ∧
      ∀ v ∈ urnKeys (emitFold b l seen).1, v ∉ seen := by
  intro l
  induction l with
  | nil => intro seen; simp [emitFold, urnKeys]
  | cons p rest ih =>
    intro seen
    obtain ⟨o, r⟩ := p
    simp only [emitFold]
    have hstep := emit_fresh b o r seen
    have hrest := ih (emit b o r seen).2
    simp only [urnKeys, List.filterMap_append, List.nodup_append]
    refine ⟨⟨hstep.1, hrest.1, ?_⟩, ?_⟩
    · intro v hv
      have hvseen : v ∈ (emit b o r seen).2 :=
        (emit_seen_iff b o r seen v).mpr (Or.inr hv)
      exact fun hv2 => hrest.2 v hv2 hvseen
    · intro v hv
      rw [List.mem_append] at hv
      rcases hv with hv | hv
      · exact hstep.2 v hv
      · intro hvseen
        exact hrest.2 v hv (emit_seen_subset b o r seen hvseen)

/-- Every result emitted by a fold has a truthy urn, tagged `"both"`
whenever that urn lies in both hit sets. -/
theorem emitFold_tags (b : List String) :
    ∀ (l : List (String × SResult)) (seen : List String) (x : SResult),
      x ∈ (emitFold b l seen).1 →
      ∃ u, urnKeyOf x = some u ∧ (u ∈ b → x.searchType = some "both") := by
  intro l
  induction l with
  | nil => intro seen x h; simp [emitFold] at h
  | cons p rest ih =>
    intro seen x h
    obtain ⟨o, r⟩ := p
    simp only [emitFold, List.mem_append] at h
    rcases h with h | h
    · exact emit_tags b o r seen x h
    · exact ih _ x h

/-- Every remaining keyword element appears (with its origin) in the
round-robin visit order. -/
theorem rrMix_mem_left :
    ∀ (ks ss : List SResult) (r : SResult), r ∈ ks → ("keyword", r) ∈ rrMix ks ss := by
  intro ks
  induction ks with
  | nil => intro ss r h; simp at h
  | cons k kt ih =>
    intro ss r h
    rcases List.mem_cons.mp h with h | h
    · subst h
      cases ss <;> simp [rrMix]
    · cases ss with
      | nil =>
        simp only [rrMix, List.mem_cons]
        exact Or.inr (ih [] r h)
      | cons s st =>
        simp only [rrMix, List.mem_cons]
        exact Or.inr (Or.inr (ih st r h))

/-- Every remaining semantic element appears (with its origin) in the
round-robin visit order. -/
theorem rrMix_mem_right :
    ∀ (ks ss : List SResult) (r : SResult), r ∈ ss → ("semantic", r) ∈ rrMix ks ss := by
  intro ks
  induction ks with
  | nil =>
    intro ss r h
    simp only [rrMix, List.mem_map]
    exact ⟨r, h, rfl⟩
  | cons k kt ih =>
    intro ss r h
    cases ss with
    | nil => simp at h
    | cons s st =>
      rcases List.mem_cons.mp h with h | h
      · subst h
        simp [rrMix]
      · simp only [rrMix, List.mem_cons]
        exact Or.inr (Or.inr (ih st r h))

/-- `fullMerge` is the emission fold over its visit order, starting from an
empty seen set. -/
theorem fullMerge_eq_fold (k s : List SResult) :
    fullMerge k s = (emitFold (bothUrns k s) (visitOf (bothUrns k s) k s) []).1 := by
  cases k with
  | nil =>
    cases s with
    | nil => simp [fullMerge, visitOf, topsOf, seen2Of, emitFold]
    | cons sh st =>
      simp [fullMerge, visitOf, topsOf, seen2Of, emitFold, emitFold_append]
  | cons kh kt =>
    cases s with
    | nil =>
      simp [fullMerge, visitOf, topsOf, seen2Of, emitFold, emitFold_append]
    | cons sh st =>
      simp [fullMerge, visitOf, topsOf, seen2Of, emitFold, emitFold_append]

/-- Coverage at the top level of the full merge: the truthy urn of every
input result (keyword or semantic) ends up in the final seen set, hence in
the merged output's urns. -/
theorem fullMerge_coverage (k s : List SResult) (u : String) :
    ((∃ r ∈ k, urnKeyOf r = some u) ∨ (∃ r ∈ s, urnKeyOf r = some u)) →
    u ∈ urnKeys (fullMerge k s) := by
  intro h
  have hiff := emitFold_seen_iff (bothUrns k s) (visitOf (bothUrns k s) k s) [] u
  simp only [List.not_mem_nil, false_or] at hiff
  rw [fullMerge_eq_fold, ← hiff]
  -- it suffices that u is seen after the whole fold
  have hsub : seen2Of (bothUrns k s) k s ⊆
      (emitFold (bothUrns k s) (visitOf (bothUrns k s) k s) []).2 := by
    intro v hv
    unfold visitOf
    rw [emitFold_append_snd]
    exact emitFold_seen_subset _ _ _ hv
  have hcov : ∀ (o : String) (r : SResult), (o, r) ∈ visitOf (bothUrns k s) k s →
      urnKeyOf r = some u →
      u ∈ (emitFold (bothUrns k s) (visitOf (bothUrns k s) k s) []).2 :=
    fun o r hmem hu => emitFold_covers _ (visitOf (bothUrns k s) k s) [] o r u hmem hu
  rcases h with ⟨r, hr, hu⟩ | ⟨r, hr, hu⟩
  · -- keyword side
    cases k with
    | nil => simp at hr
    | cons kh kt =>
      rcases List.mem_cons.mp hr with hr | hr
      · -- the top keyword result is visited in topsOf
        subst hr
        refine hcov "keyword" r ?_ hu
        unfold visitOf topsOf
        simp
      · -- a remaining keyword result: either its urn was seen after the
        -- two top positions (prefiltered away), or it is visited
        by_cases hraw : rawSeen r (seen2Of (bothUrns (kh :: kt) s) (kh :: kt) s) = true
        · exact hsub (mem_of_rawSeen r _ u hu hraw)
        · refine hcov "keyword" r ?_ hu
          unfold visitOf
          refine List.mem_append_right _ (rrMix_mem_left _ _ r ?_)
          rw [List.mem_filter]
          exact ⟨by simpa using hr, by simp [hraw]⟩
  · -- semantic side, symmetric
    cases s with
    | nil => simp at hr
    | cons sh st =>
      rcases List.mem_cons.mp hr with hr | hr
      · subst hr
        refine hcov "semantic" r ?_ hu
        unfold visitOf topsOf
        cases k <;> simp
      · by_cases hraw : rawSeen r (seen2Of (bothUrns k (sh :: st)) k (sh :: st)) = true
        · exact hsub (mem_of_rawSeen r _ u hu hraw)
        · refine hcov "semantic" r ?_ hu
          unfold visitOf
          refine List.mem_append_right _ (rrMix_mem_right _ _ r ?_)
          rw [List.mem_filter]
          exact ⟨by simpa using hr, by simp [hraw]⟩

/-! ## C1: merge deduplication and BOTH tagging -/

/-- C1: merging a keyword and a semantic hit set (each with pairwise
distinct urns), every urn occurs at most once in the merged
`searchResults`, and every urn present in both hit sets occurs exactly
once, tagged `"both"`. -/
theorem c1_merge_dedup_and_both (k s : List SResult)
    (hk : (urnKeys k).Nodup) (hs : (urnKeys s).Nodup) :
    (urnKeys (mergeSearchResults (some k) (some s))).Nodup ∧
    ∀ u, u ∈ urnKeys k → u ∈ urnKeys s →
      (mergeSearchResults (some k) (some s)).countP
          (fun r => urnKeyOf r == some u) = 1 ∧
      ∀ r ∈ mergeSearchResults (some k) (some s), urnKeyOf r = some u →
        r.searchType = some "both" := by
  by_cases hcond : (s.isEmpty && ! k.isEmpty) = true
  · -- suspicious branch: semantic list empty, keyword results returned
    have hse : s = [] := by
      rcases Bool.and_eq_true .. |>.mp hcond with ⟨h1, -⟩
      exact List.isEmpty_iff.mp h1
    subst hse
    simp only [mergeSearchResults, hcond, if_true]
    refine ⟨by rw [urnKeys_tagAll]; exact hk, ?_⟩
    intro u hku hsu
    simp [urnKeys] at hsu
  · -- full merge path
    simp only [mergeSearchResults, hcond, if_false, Bool.false_eq_true]
    have hnodup : (urnKeys (fullMerge k s)).Nodup := by
      rw [fullMerge_eq_fold]
      exact (emitFold_fresh (bothUrns k s) (visitOf (bothUrns k s) k s) []).1
    refine ⟨hnodup, ?_⟩
    intro u hku hsu
    have hub : u ∈ bothUrns k s := by
      unfold bothUrns
      rw [List.mem_filter]
      exact ⟨hku, by simpa using hsu⟩
    have hex : u ∈ urnKeys (fullMerge k s) := by
      refine fullMerge_coverage k s u (Or.inl ?_)
      unfold urnKeys at hku
      rw [List.mem_filterMap] at hku
      obtain ⟨r, hr, hru⟩ := hku
      exact ⟨r, hr, hru⟩
    constructor
    · have hcount : (urnKeys (fullMerge k s)).count u = 1 :=
        List.count_eq_one_of_mem hnodup hex
      rw [urnKeys, List.count_filterMap] at hcount
      exact hcount
    · intro r hrm hru
      rw [fullMerge_eq_fold] at hrm
      obtain ⟨w, hw, htag⟩ := emitFold_tags _ _ [] r hrm
      have hwu : w = u := by
        rw [hru] at hw
        exact (Option.some.inj hw).symm
      subst hwu
      exact htag hub

/-- C1 witness: the spec example `lexical = [d1, d2]`,
`semantic = [d1, d3]`. -/
theorem c1_merge_dedup_and_both_witness :
    (urnKeys [mkR "d1" 1, mkR "d2" 2]).Nodup ∧
    (urnKeys [mkR "d1" 11, mkR "d3" 13]).Nodup ∧
    ((urnKeys (mergeSearchResults (some [mkR "d1" 1, mkR "d2" 2])
        (some [mkR "d1" 11, mkR "d3" 13]))).Nodup ∧
      ∀ u, u ∈ urnKeys [mkR "d1" 1, mkR "d2" 2] →
        u ∈ urnKeys [mkR "d1" 11, mkR "d3" 13] →
        (mergeSearchResults (some [mkR "d1" 1, mkR "d2" 2])
            (some [mkR "d1" 11, mkR "d3" 13])).countP
          (fun r => urnKeyOf r == some u) = 1 ∧
        ∀ r ∈ mergeSearchResults (some [mkR "d1" 1, mkR "d2" 2])
            (some [mkR "d1" 11, mkR "d3" 13]), urnKeyOf r = some u →
          r.searchType = some "both") :=
  ⟨by decide, by decide,
    c1_merge_dedup_and_both [mkR "d1" 1, mkR "d2" 2] [mkR "d1" 11, mkR "d3" 13]
      (by decide) (by decide)⟩

/-! ## C10: on the full merge path every emitted hit carries a truthy urn -/

/-- C10: when both the keyword and the semantic `searchResults` lists are
non-empty (the full merge path), every hit in the merged output has a
truthy entity urn — hits lacking one are silently dropped — and the
lexical-first guarantee holds exactly when the top keyword hit carries a
urn: the merged head is then that hit, tagged `"both"` or `"keyword"`. -/
theorem c10_merged_hits_have_urns (k s : List SResult) (hk : k ≠ []) (hs : s ≠ []) :
    (∀ r ∈ mergeSearchResults (some k) (some s), ∃ u, urnKeyOf r = some u) ∧
    (∀ kh kt u, k = kh :: kt → urnKeyOf kh = some u →
      (mergeSearchResults (some k) (some s)).head? =
        some { kh with searchType := some (if u ∈ bothUrns k s then "both" else "keyword") }) := by
  have hcond : (s.isEmpty && ! k.isEmpty) = false := by
    cases s with
    | nil => exact absurd rfl hs
    | cons a l => rfl
  constructor
  · intro r hrm
    simp only [mergeSearchResults, hcond, if_false, Bool.false_eq_true] at hrm
    rw [fullMerge_eq_fold] at hrm
    obtain ⟨u, hu, -⟩ := emitFold_tags _ _ [] r hrm
    exact ⟨u, hu⟩
  · intro kh kt u hkk hu
    subst hkk
    cases s with
    | nil => exact absurd rfl hs
    | cons sh st =>
      simp only [mergeSearchResults, hcond, if_false, Bool.false_eq_true]
      simp [fullMerge, emit, hu]

/-- C10 witness: two singleton hit lists with distinct truthy urns. -/
theorem c10_merged_hits_have_urns_witness :
    ([mkR "a" 0] : List SResult) ≠ [] ∧ ([mkR "b" 1] : List SResult) ≠ [] ∧
    ((∀ r ∈ mergeSearchResults (some [mkR "a" 0]) (some [mkR "b" 1]),
        ∃ u, urnKeyOf r = some u) ∧
      (∀ kh kt u, ([mkR "a" 0] : List SResult) = kh :: kt → urnKeyOf kh = some u →
        (mergeSearchResults (some [mkR "a" 0]) (some [mkR "b" 1])).head? =
          some { kh with
                  searchType :=
                    some (if u ∈ bothUrns [mkR "a" 0] [mkR "b" 1] then "both"
                          else "keyword") })) :=
  ⟨by decide, by decide,
    c10_merged_hits_have_urns [mkR "a" 0] [mkR "b" 1] (by decide) (by decide)⟩

/-- C2: for `a, k ≥ 0` with `a + 2k ≤ MAX_HYBRID_FETCH_RESULTS` and fixed
deterministic backends, the hybrid page at `offset = a + k, num_results = k`
equals the slice `[a+k : a+2k]` of the page at `offset = 0,
num_results = a + 2k`: both calls fetch `min(offset + num_results, 100)`
results from position 0 of each strategy, merge identically, then slice. -/
theorem c2_pagination_consistency (kwB : Nat → Nat → List SResult)
    (semB : Except String (Nat → List SResult)) (a k : Nat)
    (h : a + 2 * k ≤ MAX_HYBRID_FETCH_RESULTS) :
    (hybridSearchDocuments kwB semB k (a + k)).searchResults =
      (((hybridSearchDocuments kwB semB (a + 2 * k) 0).searchResults).drop (a + k)).take k := by
  have harg : a + k + k = 0 + (a + 2 * k) := by omega
  simp only [hybridSearchDocuments, harg, List.drop_zero]
  exact (dropTakeSlice _ a k).symm

/-- C2 witness at `a = 1, k = 1` with concrete backends. -/
theorem c2_pagination_consistency_witness :
    1 + 2 * 1 ≤ MAX_HYBRID_FETCH_RESULTS ∧
    (hybridSearchDocuments kwB3 (.ok semB3) 1 (1 + 1)).searchResults =
      (((hybridSearchDocuments kwB3 (.ok semB3) (1 + 2 * 1) 0).searchResults).drop (1 + 1)).take 1 :=
  ⟨by decide, c2_pagination_consistency kwB3 (.ok semB3) 1 1 (by decide)⟩

/-! ## C3: semantic failure falls back to keyword-only results -/

/-- C3: when the semantic search raises, the overall hybrid call does not
abort; its hits are exactly the requested page of the plain keyword
(lexical) fetch, and every returned hit is tagged `"keyword"`. -/
theorem c3_semantic_fallback (kwB : Nat → Nat → List SResult) (err : String)
    (n off : Nat) :
    (hybridSearchDocuments kwB (.error err) n off).searchResults =
      tagAll "keyword"
        (((searchImplKeyword kwB (min (off + n) MAX_HYBRID_FETCH_RESULTS) 0).drop off).take n) ∧
    ∀ r ∈ (hybridSearchDocuments kwB (.error err) n off).searchResults,
      r.searchType = some "keyword" := by
  constructor
  · simp [hybridSearchDocuments, mergeSearchResults, tagAll]
  · intro r hr
    simp only [hybridSearchDocuments, mergeSearchResults] at hr
    have hr2 := List.mem_of_mem_drop (List.mem_of_mem_take hr)
    simp only [tagAll, List.mem_map] at hr2
    obtain ⟨x, _, hx⟩ := hr2
    rw [← hx]

/-! ## C4: the hybrid path does not clamp the page size to 50 -/

/-- C4 (code bug demonstration): with backends that honour the requested
count (at most 50 hits each per `_search_documents_impl`'s clamp), the
hybrid call with `num_results = 51, offset = 0` returns a 51-hit page: the
page slice of `_hybrid_search_documents` uses the raw `num_results`, so the
documented ≤ 50 page bound is violated on the hybrid path. -/
theorem c4_hybrid_page_exceeds_50 :
    (hybridSearchDocuments kwB50 (.ok semB1) 51 0).searchResults.length = 51 ∧
    50 < (hybridSearchDocuments kwB50 (.ok semB1) 51 0).searchResults.length := by
  constructor <;> decide

/-! ## C5: invalid regex pattern handling -/

/-- C5 counterexample: `grep_documents` performs the batched content fetch
BEFORE compiling the pattern, so with a non-empty urn list, a failing fetch
and a pattern that does not compile, the fetch exception propagates across
the tool boundary instead of the structured invalid-pattern result being
returned. -/
theorem c5_counterexample :
    grepDocuments (.error "backend unavailable") badCompile ["urn:li:document:doc1"]
        "[invalid" 200 5 0 = .error "backend unavailable" ∧
    badCompile "[invalid" = .error "missing closing bracket" :=
  ⟨rfl, rfl⟩

/-- C5 (amended): when the urn list is non-empty and the batched content
fetch succeeds, a pattern that fails to compile yields the structured
result with the `"Invalid regex pattern: ..."` error and zero-valued
aggregates, and no exception crosses the tool boundary. -/
theorem c5_invalid_pattern_structured (ents : List (Option GEntity))
    (compile : String → Except String (List Char)) (urns : List String)
    (pattern : String) (ctx m off : Nat) (err : String)
    (hurns : urns ≠ []) (hc : compile pattern = .error err) :
    grepDocuments (.ok ents) compile urns pattern ctx m off =
      .ok { error := some ("Invalid regex pattern: " ++ err), results := [],
            total_matches := 0, documents_with_matches := 0 } := by
  have h1 : urns.isEmpty = false := by
    cases urns with
    | nil => exact absurd rfl hurns
    | cons a l => rfl
  rw [grepDocuments]
  simp [h1, hc]

/-- C5 witness: concrete invocation of the amended theorem. -/
theorem c5_invalid_pattern_structured_witness :
    (["u1"] : List String) ≠ [] ∧
    badCompile "[invalid" = .error "missing closing bracket" ∧
    grepDocuments (.ok []) badCompile ["u1"] "[invalid" 200 5 0 =
      .ok { error := some ("Invalid regex pattern: " ++ "missing closing bracket"),
            results := [], total_matches := 0, documents_with_matches := 0 } :=
  ⟨by decide, rfl,
    c5_invalid_pattern_structured [] badCompile ["u1"] "[invalid" 200 5 0
      "missing closing bracket" (by decide) rfl⟩

/-! ## C6: true per-document count versus bounded excerpt list -/

/-- C6: for every document that `grep_documents` reports, `total_matches`
is the true number of non-overlapping left-to-right matches in the
offset-adjusted text regardless of the limit, while the materialized
excerpt list has exactly `min(true count, max_matches_per_doc)` entries. -/
theorem c6_true_count_vs_bound (pat : List Char) (ctx m off : Nat) (e : GEntity)
    (d : DocGrepResult) (hd : processDoc pat ctx m off e = some d) :
    d.total_matches = (finditer pat (e.text.drop off)).length ∧
    d.matchList.length = min d.total_matches m := by
  obtain ⟨h1, h2⟩ := processDoc_eq pat ctx m off e d hd
  refine ⟨h1, ?_⟩
  rw [h2, List.length_map, List.length_take, h1, Nat.min_comm]

/-- The entry produced for the spec example `text = "word " * 10`,
`max_matches_per_doc = 3`. -/
def wordDoc : DocGrepResult :=
  { urn := "u", title := "t"
    matchList := [⟨"word ...".toList, 0⟩, ⟨"...word ...".toList, 5⟩, ⟨"...word ...".toList, 10⟩]
    total_matches := 10
    content_length := none }

/-- C6 witness: the spec example, `totalMatchesInDoc = 10` and 3 excerpts. -/
theorem c6_true_count_vs_bound_witness :
    processDoc "word ".toList 0 3 0 ⟨"u", "t", wordText⟩ = some wordDoc ∧
    (wordDoc.total_matches = (finditer "word ".toList (wordText.drop 0)).length ∧
      wordDoc.matchList.length = min wordDoc.total_matches 3) ∧
    wordDoc.total_matches = 10 ∧ wordDoc.matchList.length = 3 :=
  ⟨by decide,
    c6_true_count_vs_bound "word ".toList 0 3 0 ⟨"u", "t", wordText⟩ wordDoc (by decide),
    by decide, by decide⟩

/-! ## C7: reported positions are absolute -/

/-- C7: every excerpt reported by `grep_documents` carries
`position = matchStart + start_offset`, and that position addresses the
match in the coordinate space of the original untruncated document text:
the pattern occurs in `e.text` at exactly `x.position`. -/
theorem c7_positions_absolute (pat : List Char) (ctx m off : Nat) (e : GEntity)
    (d : DocGrepResult) (hd : processDoc pat ctx m off e = some d) :
    ∀ x ∈ d.matchList, ∃ s ∈ finditer pat (e.text.drop off),
      x.position = s + off ∧ (e.text.drop x.position).take pat.length = pat := by
  obtain ⟨h1, h2⟩ := processDoc_eq pat ctx m off e d hd
  intro x hx
  rw [h2] at hx
  simp only [List.mem_map] at hx
  obtain ⟨s, hs, hxs⟩ := hx
  have hsm : s ∈ finditer pat (e.text.drop off) := List.mem_of_mem_take hs
  have hpos : x.position = s + off := by rw [← hxs]; rfl
  refine ⟨s, hsm, hpos, ?_⟩
  unfold finditer at hsm
  obtain ⟨hge, hpre⟩ := litPosAux_spec pat _ _ _ _ hsm
  rw [Nat.sub_zero, List.drop_drop, List.isPrefixOf_iff_prefix] at hpre
  have htake := List.prefix_iff_eq_take.mp hpre
  rw [hpos, Nat.add_comm s off, ← htake]

/-- The entry produced for the spec example `T = "A"*50 + "MATCH" + "B"*50`
with `start_offset = 30`. -/
def abDoc : DocGrepResult :=
  { urn := "u", title := "t"
    matchList := [⟨List.replicate 20 'A' ++ "MATCH".toList ++ List.replicate 50 'B', 50⟩]
    total_matches := 1
    content_length := some 105 }

/-- C7 witness: the spec example reports position 50 (not 20). -/
theorem c7_positions_absolute_witness :
    processDoc "MATCH".toList 200 5 30 ⟨"u", "t", abText⟩ = some abDoc ∧
    (∀ x ∈ abDoc.matchList, ∃ s ∈ finditer "MATCH".toList (abText.drop 30),
      x.position = s + 30 ∧
        (abText.drop x.position).take ("MATCH".toList).length = "MATCH".toList) ∧
    abDoc.matchList.map (fun x => x.position) = [50] :=
  ⟨by decide,
    c7_positions_absolute "MATCH".toList 200 5 30 ⟨"u", "t", abText⟩ abDoc (by decide),
    by decide⟩

/-! ## C8: version gate inclusion rule -/

/-- C8: under a successful deployment probe, a tool with a registered
requirement is kept by the version filter iff the minimum for the connected
deployment class is non-null and the probed server version is
lexicographically at least that minimum; in particular a null class
minimum excludes the tool at every version. -/
theorem c8_version_gate (reqs : List (String × VersionReq)) (isCloud : Bool)
    (v : Version4) (tools : List ToolDesc) (t : ToolDesc) (req : VersionReq)
    (hreq : lookupReq reqs t.name = some req) :
    t ∈ filterToolsByVersion reqs (.ok (isCloud, v)) tools ↔
      t ∈ tools ∧ ∃ m, classMin req isCloud = some m ∧ versionLe m v = true := by
  have hne : reqs.isEmpty = false := by
    cases reqs with
    | nil => simp [lookupReq] at hreq
    | cons a l => rfl
  rw [filterToolsByVersion]
  simp only [hne, Bool.false_eq_true, if_false]
  rw [List.mem_filter]
  simp only [hreq]
  rw [isToolCompatible]
  cases hcm : classMin req isCloud with
  | none => simp
  | some m => simp

/-- C8 witness: a hosted-only tool (`oss_min = null`) is excluded on a
self-managed deployment at an arbitrarily high version. -/
theorem c8_version_gate_witness :
    lookupReq hostedOnlyReqs "hosted_only_tool" = some ⟨some (0, 3, 16, 0), none⟩ ∧
    ((⟨"hosted_only_tool"⟩ : ToolDesc) ∈
        filterToolsByVersion hostedOnlyReqs (.ok (false, (999, 999, 999, 999)))
          [⟨"hosted_only_tool"⟩] ↔
      (⟨"hosted_only_tool"⟩ : ToolDesc) ∈ ([⟨"hosted_only_tool"⟩] : List ToolDesc) ∧
      ∃ m, classMin ⟨some (0, 3, 16, 0), none⟩ false = some m ∧
        versionLe m (999, 999, 999, 999) = true) ∧
    filterToolsByVersion hostedOnlyReqs (.ok (false, (999, 999, 999, 999)))
      [⟨"hosted_only_tool"⟩] = [] :=
  ⟨by decide,
    c8_version_gate hostedOnlyReqs false (999, 999, 999, 999) [⟨"hosted_only_tool"⟩]
      ⟨"hosted_only_tool"⟩ ⟨some (0, 3, 16, 0), none⟩ (by decide),
    by decide⟩

/-! ## C9: content-existence gate fails closed for the document tools -/

/-- C9: if the cached document-existence probe raises, exactly the tools
named `search_documents` and `grep_documents` are removed, and every other
tool of the input appears in the output unchanged and in order (the output
is a sublist of the input). -/
theorem c9_content_gate_fail_closed (err : String) (tools : List ToolDesc) :
    (∀ t, t ∈ filterDocumentTools false (.error err) tools ↔
        t ∈ tools ∧ t.name ≠ "search_documents" ∧ t.name ≠ "grep_documents") ∧
    (filterDocumentTools false (.error err) tools).Sublist tools := by
  constructor
  · intro t
    simp [filterDocumentTools, DOCUMENT_TOOL_NAMES, List.mem_filter]
  · simp only [filterDocumentTools, Bool.false_eq_true, if_false]
    exact List.filter_sublist _
